import Mathlib

/-!
# Verification of the VideoDLP job queue and worker core

A shallow embedding of `src/job_queue.py` (the `Job` record and the
`JobQueue` scheduler) and of `src/worker.py` (the `DownloadWorker`
progress-hook parsing and run/status translation), together with proofs
settling the specification's claims about them.

Modelling conventions:

* Python `Job` objects are mutable records shared by reference between the
  queue's `_pending`/`_running` lists and the worker callbacks.  We give
  every created job a numeric identity (`nextId` counter) and keep the
  single mutable store `recs : Nat → JobRec`; the lists hold identities.
* Python `@dataclass` generates `__eq__` as field-by-field equality, so
  `list.remove`, `list.index` and `in` in `job_queue.py` compare jobs by
  *value*, not identity.  `DownloadWorker` objects have no `__eq__`, hence
  compare by object identity; since each job is launched at most once we
  use the job's own id as its worker's identity.  Job value-equality is
  therefore equality of `JobRec` (payload, state, worker reference).
* The opaque `(urls, opts, out_dir)` payload of a job is abstracted as a
  single `Nat`; `job_queue.py` never inspects it, only compares it
  (through dataclass equality).
* Qt signal emissions are recorded in an `events` trace.
-/

namespace VideoDLP

/-- The five values of `Job.state` in `src/job_queue.py` (line 21):
`Queued | Running | Done | Error | Cancelled`. -/
inductive JState where
  | queued
  | running
  | done
  | error
  | cancelled
deriving DecidableEq, Repr

/-- The mutable contents of one Python `Job` dataclass: the immutable
payload `(urls, opts, out_dir)` abstracted as a `Nat`, the lifecycle
`state`, and the optional worker reference (`worker` field), modelled by
the identity of the worker's job.  Equality of `JobRec` is exactly
dataclass `==` of `Job` (worker references compare by object identity,
encoded in the id). -/
structure JobRec where
  payload : Nat
  state : JState
  worker : Option Nat
deriving DecidableEq, Repr

/-- The Qt signals emitted by `JobQueue` (`job_updated`, `message`,
`queue_empty`) plus the `worker.terminate()` call performed by
`JobQueue.cancel`, recorded as an observable action. -/
inductive Event where
  | jobUpdated (idx : Nat)
  | message (txt : String)
  | queueEmpty
  | terminated (wid : Nat)
deriving DecidableEq, Repr

/-- The state of one `JobQueue` object: `_max_parallel`, the fresh-id
counter, the shared job store, `_pending` (deque) and `_running` (list)
as lists of job identities, and the trace of emitted events. -/
structure QState where
  maxParallel : Nat
  nextId : Nat
  recs : Nat → JobRec
  pending : List Nat
  running : List Nat
  events : List Event

/-- Mutate the job store at one identity (a Python attribute assignment
such as `job.state = "Running"`). -/
def setRec (f : Nat → JobRec) (i : Nat) (r : JobRec) : Nat → JobRec :=
  fun j => if j = i then r else f j

/-- Python `list.remove(job)` guarded by `try/except ValueError: pass`
(`job_queue.py` lines 49–50): delete the first element whose dataclass
value equals `r`; leave the list unchanged when no element matches. -/
def removeFirstEq (f : Nat → JobRec) (r : JobRec) : List Nat → List Nat
  | [] => []
  | j :: rest => if f j = r then rest else j :: removeFirstEq f r rest

/-- Python `list.index(job)`: the position of the first element whose
dataclass value equals `r` (only ever used where a match exists). -/
def indexOfEq (f : Nat → JobRec) (r : JobRec) (l : List Nat) : Nat :=
  l.findIdx (fun j => decide (f j = r))

/-- Python `job in list`: membership by dataclass value equality. -/
def memEq (f : Nat → JobRec) (r : JobRec) (l : List Nat) : Bool :=
  l.any (fun j => decide (f j = r))

/-- `JobQueue.jobs()` (line 54–55): the combined view
`list(self._pending) + self._running`. -/
def jobsView (s : QState) : List Nat :=
  s.pending ++ s.running

/-- Python `txt.startswith(pre)`. -/
def pyStartsWith (s pre : String) : Bool :=
  pre.data.isPrefixOf s.data

/-- One iteration bound for `_launch_if_possible`'s `while` loop; the
loop removes one element of `_pending` per iteration, so
`s.pending.length` steps always suffice. -/
def launchLoop : Nat → QState → QState
  | 0, s => s
  | fuel + 1, s =>
    match s.pending with
    | [] => s
    | id :: rest =>
      if s.running.length < s.maxParallel then
        let r := s.recs id
        let recs1 := setRec s.recs id { r with state := .running, worker := some id }
        let pending1 := rest
        let running1 := s.running ++ [id]
        let idx := indexOfEq recs1 (recs1 id) (pending1 ++ running1)
        launchLoop fuel
          { s with recs := recs1, pending := pending1, running := running1,
                   events := s.events ++ [Event.jobUpdated idx] }
      else s

/-- `JobQueue._launch_if_possible` (lines 58–68): while `_pending` is
non-empty and `len(_running) < _max_parallel`, pop the head of
`_pending`, give it a fresh worker, set its state to `Running`, append it
to `_running`, and emit `job_updated(self.jobs().index(job))`. -/
def launchIfPossible (s : QState) : QState :=
  launchLoop s.pending.length s

/-- `JobQueue.enqueue` (lines 37–39): append a fresh `Queued` job with no
worker to `_pending`, then run the admission pass. -/
def enqueue (s : QState) (payload : Nat) : QState :=
  let id := s.nextId
  launchIfPossible
    { s with nextId := id + 1,
             recs := setRec s.recs id ⟨payload, .queued, none⟩,
             pending := s.pending ++ [id] }

/-- `JobQueue.cancel` (lines 41–52).  `idx` addresses the combined
`jobs()` view; out of range is a silent no-op.  A `Running` job with a
worker gets `worker.terminate()` and state `Cancelled`; a `Queued` job is
removed from `_pending` by dataclass value (`deque.remove`) and set to
`Cancelled`; any other state only re-emits `job_updated(idx)`. -/
def cancel (s : QState) (idx : Int) : QState :=
  let jobs := jobsView s
  if idx < 0 ∨ (jobs.length : Int) ≤ idx then s
  else
    let id := jobs.getD idx.toNat 0
    let r := s.recs id
    if r.state = .running ∧ r.worker ≠ none then
      { s with recs := setRec s.recs id { r with state := .cancelled },
               events := s.events ++ [Event.terminated (r.worker.getD 0), Event.jobUpdated idx.toNat] }
    else if r.state = .queued then
      { s with recs := setRec s.recs id { r with state := .cancelled },
               pending := removeFirstEq s.recs r s.pending,
               events := s.events ++ [Event.jobUpdated idx.toNat] }
    else
      { s with events := s.events ++ [Event.jobUpdated idx.toNat] }

/-- Lines 71–73 of `JobQueue._handle_status`: when the worker's status
text starts with `"Error"`, set the job's state to `Error` and forward
the text on the `message` signal. -/
def statusMark (s : QState) (jid : Nat) (txt : String) : QState :=
  if pyStartsWith txt "Error" then
    { s with recs := setRec s.recs jid { s.recs jid with state := .error },
             events := s.events ++ [Event.message txt] }
  else s

/-- The `# emit update only if job still tracked` block shared by
`_handle_status` (lines 75–77) and `_on_finished` (lines 82–84): emit
`job_updated` at the job's current index in the combined view, but only
if `job in self.jobs()` (membership by dataclass value). -/
def emitIfTracked (s : QState) (jid : Nat) : QState :=
  if memEq s.recs (s.recs jid) (jobsView s) then
    { s with events := s.events ++ [Event.jobUpdated (indexOfEq s.recs (s.recs jid) (jobsView s))] }
  else s

/-- `JobQueue._handle_status` (lines 70–77). -/
def handleStatus (s : QState) (jid : Nat) (txt : String) : QState :=
  emitIfTracked (statusMark s jid txt) jid

/-- Lines 80–81 of `JobQueue._on_finished`: mark the job `Done` unless
its state is already `Error` or `Cancelled`. -/
def finishMark (s : QState) (jid : Nat) : QState :=
  if (s.recs jid).state ≠ .error ∧ (s.recs jid).state ≠ .cancelled then
    { s with recs := setRec s.recs jid { s.recs jid with state := .done } }
  else s

/-- Lines 85–86 of `JobQueue._on_finished`:
`if job in self._running: self._running.remove(job)` (both by dataclass
value). -/
def finishRemove (s : QState) (jid : Nat) : QState :=
  if memEq s.recs (s.recs jid) s.running then
    { s with running := removeFirstEq s.recs (s.recs jid) s.running }
  else s

/-- `JobQueue._on_finished` (lines 79–91): mark `Done` unless already
`Error`/`Cancelled`, emit `job_updated` if still tracked, remove the job
from `_running`, then either emit `queue_empty` (both lists empty) or
re-run the admission pass. -/
def onFinished (s : QState) (jid : Nat) : QState :=
  let s3 := finishRemove (emitIfTracked (finishMark s jid) jid) jid
  if s3.pending = [] ∧ s3.running = [] then
    { s3 with events := s3.events ++ [Event.queueEmpty] }
  else launchIfPossible s3

/-- The operations that drive a `JobQueue`: the public API calls
(`enqueue`, `cancel`), the two worker-signal handlers (`status` for
`_handle_status`, `finished` for `_on_finished`), and the GUI's direct
mutation of `_max_parallel` (`gui.py` line 98,
`setattr(self.queue, "_max_parallel", i + 1)`). -/
inductive Op where
  | enqueue (payload : Nat)
  | cancel (idx : Int)
  | status (id : Nat) (txt : String)
  | finished (id : Nat)
  | setMax (n : Nat)
deriving DecidableEq, Repr

/-- Apply one operation to a queue state. -/
def step (s : QState) : Op → QState
  | .enqueue p => enqueue s p
  | .cancel i => cancel s i
  | .status id txt => handleStatus s id txt
  | .finished id => onFinished s id
  | .setMax n => { s with maxParallel := n }

/-- `JobQueue.__init__(max_parallel)` (lines 30–34): empty pending deque,
empty running list, no jobs created yet. -/
def init (m : Nat) : QState :=
  ⟨m, 0, fun _ => ⟨0, .queued, none⟩, [], [], []⟩

/-- Run a concrete operation sequence from a fresh queue. -/
def run (m : Nat) (ops : List Op) : QState :=
  ops.foldl step (init m)

/-- The queue states reachable through the system's real entry points:
worker signals (`status`/`finished`) are only ever connected for jobs
that have actually been launched, i.e. whose `worker` reference is their
own worker; `enqueue`, `cancel` and the GUI's `_max_parallel` write are
unrestricted. -/
inductive Reaches : QState → Prop where
  | init (m : Nat) : Reaches (init m)
  | enqueue {s : QState} (p : Nat) : Reaches s → Reaches (enqueue s p)
  | cancel {s : QState} (i : Int) : Reaches s → Reaches (cancel s i)
  | status {s : QState} (id : Nat) (txt : String) :
      Reaches s → (s.recs id).worker = some id → Reaches (handleStatus s id txt)
  | finished {s : QState} (id : Nat) :
      Reaches s → (s.recs id).worker = some id → Reaches (onFinished s id)
  | setMax {s : QState} (n : Nat) : Reaches s → Reaches { s with maxParallel := n }

/-- Structural well-formedness of a queue state, enjoyed by every
reachable state: tracked identities are below the fresh counter and
pairwise distinct; pending jobs have no worker and are `Queued` or
`Cancelled`; jobs in `_running` hold their own worker; any worker
reference a job holds is its own; and a job whose state is `Running` is
in `_running`. -/
structure WF (s : QState) : Prop where
  fresh : ∀ id ∈ s.pending ++ s.running, id < s.nextId
  nodup : (s.pending ++ s.running).Nodup
  pend : ∀ id ∈ s.pending,
    (s.recs id).worker = none ∧ ((s.recs id).state = .queued ∨ (s.recs id).state = .cancelled)
  runw : ∀ id ∈ s.running, (s.recs id).worker = some id
  wopt : ∀ id, (s.recs id).worker = none ∨ (s.recs id).worker = some id
  runstate : ∀ id, (s.recs id).state = .running → id ∈ s.running

/-!
## The worker (`src/worker.py`)

`DownloadWorker` runs the external `yt_dlp` engine on its own thread and
translates the engine's callbacks into `progress_signal`, `log_signal`
and `status_signal` emissions.
-/

/-- Consume the tail of one match of `_ANSI_RE = r"\x1b\[[0-9;]*m"`
after the leading `ESC [`: zero or more digits/semicolons, then `m`.
Returns the rest of the input on a match, `none` otherwise. -/
def consumeAnsi : List Char → Option (List Char)
  | [] => none
  | c :: r =>
    if c = 'm' then some r
    else if c.isDigit ∨ c = ';' then consumeAnsi r
    else none

/-- `_ANSI_RE.sub("", text)` (`worker.py` line 14 and 34): delete every
leftmost non-overlapping match of `\x1b\[[0-9;]*m`.  The fuel argument
only drives the recursion; each call consumes at least one character, so
the wrapper's `l.length` fuel is always sufficient. -/
def stripAnsiAux : Nat → List Char → List Char
  | 0, l => l
  | _ + 1, [] => []
  | fuel + 1, c :: rest =>
    if c = '\x1b' then
      match rest with
      | '[' :: r2 =>
        match consumeAnsi r2 with
        | some r3 => stripAnsiAux fuel r3
        | none => c :: stripAnsiAux fuel rest
      | _ => c :: stripAnsiAux fuel rest
    else c :: stripAnsiAux fuel rest

/-- String wrapper for the ANSI-escape stripper. -/
def stripAnsiStr (s : String) : String :=
  ⟨stripAnsiAux s.data.length s.data⟩

/-- `.replace("%", "")` (`worker.py` line 34): the pattern is the single
character `%`, so the replacement deletes every `%`. -/
def removePercent (s : String) : String :=
  ⟨s.data.filter (fun c => c ≠ '%')⟩

/-- Python `str.strip()`: drop whitespace from both ends. -/
def pyStrip (s : String) : String :=
  ⟨((s.data.dropWhile Char.isWhitespace).reverse.dropWhile Char.isWhitespace).reverse⟩

/-- Numeric value of a digit run. -/
def digitsVal (l : List Char) : Nat :=
  l.foldl (fun a c => a * 10 + (c.toNat - '0'.toNat)) 0

/-- The exact rational `±(n / d)` (the value a parsed float literal
denotes; every value this program meets is a finite decimal, hence
exact). -/
def pyRat (neg : Bool) (n d : Nat) : ℚ :=
  if neg then mkRat (-(n : Int)) d else mkRat (n : Int) d

/-- The exponent tail of a float literal (`e`/`E` already consumed): an
optional sign and a non-empty digit run ending the string; scales the
significand `±(num0 / den0)` by the corresponding power of ten. -/
def pyFloatExp (neg : Bool) (num0 den0 : Nat) (r : List Char) : Option ℚ :=
  let signed : Bool × List Char :=
    match r with
    | '+' :: t => (false, t)
    | '-' :: t => (true, t)
    | _ => (false, r)
  let eneg := signed.1
  let t := signed.2
  if t ≠ [] ∧ (t.span Char.isDigit).2 = [] then
    let e := digitsVal t
    if eneg then some (pyRat neg num0 (den0 * 10 ^ e))
    else some (pyRat neg (num0 * 10 ^ e) den0)
  else none

/-- Python `float(s)` on an already-stripped string, modelled over `ℚ`:
an optional sign, a decimal significand with at least one digit, and an
optional exponent.  `none` models `float` raising `ValueError`.  (The
exotic `float` spellings `inf`/`nan`/underscore separators are outside
the values this program ever produces or the spec mentions.) -/
def pyFloat? (s : String) : Option ℚ :=
  let l := s.data
  let signed : Bool × List Char :=
    match l with
    | '+' :: r => (false, r)
    | '-' :: r => (true, r)
    | _ => (false, l)
  let neg := signed.1
  let l1 := signed.2
  let ipSplit := l1.span Char.isDigit
  let ip := ipSplit.1
  let l2 := ipSplit.2
  let fpSplit : List Char × List Char :=
    match l2 with
    | '.' :: r => r.span Char.isDigit
    | _ => ([], l2)
  let fp := fpSplit.1
  let l3 := if l2.head? = some '.' then fpSplit.2 else l2
  if ip = [] ∧ fp = [] then none
  else
    let num0 : Nat := digitsVal ip * 10 ^ fp.length + digitsVal fp
    let den0 : Nat := 10 ^ fp.length
    match l3 with
    | [] => some (pyRat neg num0 den0)
    | 'e' :: r => pyFloatExp neg num0 den0 r
    | 'E' :: r => pyFloatExp neg num0 den0 r
    | _ => none

/-- The hook's percent computation (`worker.py` lines 34–38):
`pct_raw = _ANSI_RE.sub("", data.get("_percent_str", "").replace("%", ""))`
then `pct = float(pct_raw.strip() or 0)` with `ValueError` defaulting to
`0.0`.  (`pct_raw.strip() or 0` feeds `0` to `float` when the stripped
text is empty; our parser returns `none` there, and both paths yield
`0`.) -/
def percentOf (percentStr : String) : ℚ :=
  let pctRaw := stripAnsiStr (removePercent percentStr)
  match pyFloat? (pyStrip pctRaw) with
  | some q => q
  | none => 0

/-- Split a character list at `/` separators. -/
def splitSlash (l : List Char) : List (List Char) :=
  l.foldr (fun c acc => if c = '/' then [] :: acc else (c :: acc.headD []) :: acc.tail) [[]]

/-- `Path(name).name` for the plain POSIX paths the engine reports: the
last non-empty `/`-separated component (trailing separators ignored),
empty for an empty path. -/
def pyName (s : String) : String :=
  ⟨((splitSlash s.data).filter (fun p => p ≠ [])).getLastD []⟩

/-- The status dictionary passed to a progress hook, restricted to the
keys `worker.py` reads: `status`, `_percent_str`, `filename`. -/
structure HookData where
  status : String
  percentStr : String
  filename : String

/-- `DownloadWorker._hook` (lines 32–40): on a `"downloading"` status
dictionary, emit `(percent, basename)` on the progress channel; any
other status emits nothing. -/
def hook (d : HookData) : Option (ℚ × String) :=
  if d.status = "downloading" then some (percentOf d.percentStr, pyName d.filename)
  else none

/-- The worker's outbound signals. -/
inductive WEvent where
  | progress (pct : ℚ) (name : String)
  | log (txt : String)
  | status (txt : String)
deriving DecidableEq, Repr

/-- One callback the engine makes during `download`: a progress-hook
invocation or a logger line (`_QtLogger` treats debug/warning/error
identically, lines 43–46). -/
inductive EngineCall where
  | hookCall (d : HookData)
  | logCall (txt : String)

/-- The status text emitted when `download` returns or raises
(`worker.py` lines 57–60): `"Finished"` on normal return,
`"Error: " ++ str(exc)` when any `Exception` is raised. -/
def statusText : Except String Unit → String
  | .ok _ => "Finished"
  | .error msg => "Error: " ++ msg

/-- The progress/log emissions produced while `download` runs: every
hook call with status `"downloading"` becomes a progress emission
(`_hook`, lines 32–40), every logged line is forwarded verbatim
(`_QtLogger`, lines 43–46). -/
def engineEvents (calls : List EngineCall) : List WEvent :=
  calls.foldr
    (fun c acc =>
      match c with
      | .hookCall d =>
        match hook d with
        | some pr => WEvent.progress pr.1 pr.2 :: acc
        | none => acc
      | .logCall t => WEvent.log t :: acc)
    []

/-- `DownloadWorker.run` (lines 49–60), as a function of the engine's
behaviour (its sequence of callbacks and its outcome): the in-flight
emissions followed by exactly one status emission — the
`try/except Exception` means no engine error escapes the thread. -/
def workerRun (calls : List EngineCall) (outcome : Except String Unit) : List WEvent :=
  engineEvents calls ++ [WEvent.status (statusText outcome)]

/-!
## Basic lemmas about the admission loop
-/

theorem setRec_same (f : Nat → JobRec) (i : Nat) (r : JobRec) : setRec f i r i = r := by
  simp [setRec]

theorem setRec_other (f : Nat → JobRec) (i j : Nat) (r : JobRec) (h : j ≠ i) :
    setRec f i r j = f j := by
  simp [setRec, h]

theorem launchLoop_maxParallel (fuel : Nat) (s : QState) :
    (launchLoop fuel s).maxParallel = s.maxParallel := by
  induction fuel generalizing s with
  | zero => rfl
  | succ fuel ih =>
    rw [launchLoop]
    cases hp : s.pending with
    | nil => rfl
    | cons id rest =>
      by_cases hg : s.running.length < s.maxParallel
      · simp only [if_pos hg]
        rw [ih]
      · simp only [if_neg hg]

theorem launchLoop_nextId (fuel : Nat) (s : QState) :
    (launchLoop fuel s).nextId = s.nextId := by
  induction fuel generalizing s with
  | zero => rfl
  | succ fuel ih =>
    rw [launchLoop]
    cases hp : s.pending with
    | nil => rfl
    | cons id rest =>
      by_cases hg : s.running.length < s.maxParallel
      · simp only [if_pos hg]
        rw [ih]
      · simp only [if_neg hg]

theorem launchLoop_running_le (fuel : Nat) (s : QState)
    (h : s.running.length ≤ s.maxParallel) :
    (launchLoop fuel s).running.length ≤ s.maxParallel := by
  induction fuel generalizing s with
  | zero => exact h
  | succ fuel ih =>
    rw [launchLoop]
    cases hp : s.pending with
    | nil => exact h
    | cons id rest =>
      by_cases hg : s.running.length < s.maxParallel
      · simp only [if_pos hg]
        exact ih _ (by simpa using Nat.succ_le_of_lt hg)
      · simp only [if_neg hg]
        exact h

/-- Each admission pass moves a prefix of `_pending`, in order, to the
tail of `_running`. -/
theorem launchLoop_fifo (fuel : Nat) (s : QState) :
    ∃ k, (launchLoop fuel s).pending = s.pending.drop k ∧
         (launchLoop fuel s).running = s.running ++ s.pending.take k := by
  induction fuel generalizing s with
  | zero => exact ⟨0, by simp [launchLoop]⟩
  | succ fuel ih =>
    rw [launchLoop]
    cases hp : s.pending with
    | nil => exact ⟨0, by simp [hp]⟩
    | cons id rest =>
      by_cases hg : s.running.length < s.maxParallel
      · simp only [if_pos hg]
        obtain ⟨k, hpend, hrun⟩ := ih _
        refine ⟨k + 1, ?_, ?_⟩
        · simpa using hpend
        · simp only [List.take_succ_cons]
          rw [hrun]
          simp
      · simp only [if_neg hg]
        exact ⟨0, by simp [hp]⟩

/-- When given enough fuel (the loop never runs out in `launchIfPossible`),
the admission pass ends with either an empty `_pending` or a full
`_running`. -/
theorem launchLoop_full (fuel : Nat) (s : QState) (hf : s.pending.length ≤ fuel) :
    (launchLoop fuel s).pending = [] ∨
      s.maxParallel ≤ (launchLoop fuel s).running.length := by
  induction fuel generalizing s with
  | zero =>
    left
    rw [launchLoop]
    exact List.eq_nil_of_length_eq_zero (Nat.le_zero.mp hf)
  | succ fuel ih =>
    rw [launchLoop]
    cases hp : s.pending with
    | nil => exact Or.inl hp
    | cons id rest =>
      by_cases hg : s.running.length < s.maxParallel
      · simp only [if_pos hg]
        refine ih _ ?_
        have : rest.length + 1 ≤ fuel + 1 := by
          simpa [hp] using hf
        simpa using Nat.le_of_succ_le_succ this
      · simp only [if_neg hg]
        exact Or.inr (Nat.le_of_not_lt hg)

theorem launchLoop_count_queueEmpty (fuel : Nat) (s : QState) :
    (launchLoop fuel s).events.count Event.queueEmpty =
      s.events.count Event.queueEmpty := by
  induction fuel generalizing s with
  | zero => rfl
  | succ fuel ih =>
    rw [launchLoop]
    cases hp : s.pending with
    | nil => rfl
    | cons id rest =>
      by_cases hg : s.running.length < s.maxParallel
      · simp only [if_pos hg]
        rw [ih]
        simp [List.count_append, List.count_singleton]
      · simp only [if_neg hg]

theorem launchLoop_recs_not_mem (fuel : Nat) (s : QState) (j : Nat)
    (hj : j ∉ s.pending) :
    (launchLoop fuel s).recs j = s.recs j := by
  induction fuel generalizing s with
  | zero => rfl
  | succ fuel ih =>
    rw [launchLoop]
    cases hp : s.pending with
    | nil => rfl
    | cons id rest =>
      rw [hp] at hj
      by_cases hg : s.running.length < s.maxParallel
      · simp only [if_pos hg]
        rw [ih]
        · exact setRec_other _ _ _ _ (fun h => hj (h ▸ List.mem_cons_self id rest))
        · exact fun h => hj (List.mem_cons_of_mem id h)
      · simp only [if_neg hg]

theorem removeFirstEq_sublist (f : Nat → JobRec) (r : JobRec) (l : List Nat) :
    List.Sublist (removeFirstEq f r l) l := by
  induction l with
  | nil => simp [removeFirstEq]
  | cons j rest ih =>
    rw [removeFirstEq]
    by_cases hj : f j = r
    · simp only [if_pos hj]
      exact List.sublist_cons_self j rest
    · simp only [if_neg hj]
      exact ih.cons₂ j

theorem mem_removeFirstEq_of_ne (f : Nat → JobRec) (r : JobRec) (l : List Nat) (j : Nat)
    (hj : j ∈ l) (hne : f j ≠ r) : j ∈ removeFirstEq f r l := by
  induction l with
  | nil => simp at hj
  | cons a rest ih =>
    rw [removeFirstEq]
    by_cases ha : f a = r
    · simp only [if_pos ha]
      rcases List.mem_cons.mp hj with h | h
      · exact absurd (h ▸ ha) hne
      · exact h
    · simp only [if_neg ha]
      rcases List.mem_cons.mp hj with h | h
      · exact h ▸ List.mem_cons_self a _
      · exact List.mem_cons_of_mem a (ih h)

/-!
## Preservation of well-formedness
-/

theorem wf_launchLoop (fuel : Nat) (s : QState) (h : WF s) : WF (launchLoop fuel s) := by
  induction fuel generalizing s with
  | zero => exact h
  | succ fuel ih =>
    rw [launchLoop]
    cases hp : s.pending with
    | nil => exact h
    | cons id rest =>
      by_cases hg : s.running.length < s.maxParallel
      · simp only [if_pos hg]
        refine ih _ ?_
        have hnodup0 : (id :: (rest ++ s.running)).Nodup := by
          have := h.nodup; rw [hp] at this; simpa using this
        have hid : id ∉ rest ++ s.running := (List.nodup_cons.mp hnodup0).1
        have hperm : List.Perm (rest ++ (s.running ++ [id])) (id :: (rest ++ s.running)) := by
          rw [← List.append_assoc]
          exact List.perm_append_singleton id (rest ++ s.running)
        refine ⟨?_, ?_, ?_, ?_, ?_, ?_⟩ <;> dsimp only
        · intro j hj
          have hj2 : j ∈ id :: (rest ++ s.running) := hperm.mem_iff.mp hj
          have : j ∈ s.pending ++ s.running := by
            rw [hp]; simpa using hj2
          exact h.fresh j this
        · exact hperm.nodup_iff.mpr hnodup0
        · intro j hj
          have hjne : j ≠ id := fun he =>
            hid (he ▸ List.mem_append_left _ hj)
          rw [setRec_other _ _ _ _ hjne]
          exact h.pend j (by rw [hp]; exact List.mem_cons_of_mem id hj)
        · intro j hj
          rcases List.mem_append.mp hj with hjr | hjid
          · have hjne : j ≠ id := fun he =>
              hid (he ▸ List.mem_append_right _ hjr)
            rw [setRec_other _ _ _ _ hjne]
            exact h.runw j hjr
          · have : j = id := by simpa using hjid
            subst this
            rw [setRec_same]
        · intro j
          by_cases hje : j = id
          · subst hje; rw [setRec_same]; right; rfl
          · rw [setRec_other _ _ _ _ hje]; exact h.wopt j
        · intro j hjs
          by_cases hje : j = id
          · subst hje; exact List.mem_append_right _ (by simp)
          · rw [setRec_other _ _ _ _ hje] at hjs
            exact List.mem_append_left _ (h.runstate j hjs)
      · simp only [if_neg hg]
        exact h

theorem wf_enqueue (s : QState) (p : Nat) (h : WF s) : WF (enqueue s p) := by
  rw [enqueue, launchIfPossible]
  apply wf_launchLoop
  have hfreshid : s.nextId ∉ s.pending ++ s.running := fun hmem =>
    absurd (h.fresh _ hmem) (Nat.lt_irrefl _)
  refine ⟨?_, ?_, ?_, ?_, ?_, ?_⟩ <;> dsimp only
  · intro j hj
    simp only [List.append_assoc, List.singleton_append, List.mem_append, List.mem_cons] at hj
    rcases hj with hjp | hje | hjr
    · exact Nat.lt_succ_of_lt (h.fresh j (List.mem_append_left _ hjp))
    · simp [hje]
    · exact Nat.lt_succ_of_lt (h.fresh j (List.mem_append_right _ hjr))
  · rw [List.append_assoc, List.singleton_append]
    rw [List.nodup_middle]
    refine List.nodup_cons.mpr ⟨hfreshid, h.nodup⟩
  · intro j hj
    rcases List.mem_append.mp hj with hjp | hje
    · have hjne : j ≠ s.nextId := fun he =>
        hfreshid (he ▸ List.mem_append_left _ hjp)
      rw [setRec_other _ _ _ _ hjne]
      exact h.pend j hjp
    · have : j = s.nextId := by simpa using hje
      subst this
      rw [setRec_same]
      exact ⟨rfl, Or.inl rfl⟩
  · intro j hj
    have hjne : j ≠ s.nextId := fun he =>
      hfreshid (he ▸ List.mem_append_right _ hj)
    rw [setRec_other _ _ _ _ hjne]
    exact h.runw j hj
  · intro j
    by_cases hje : j = s.nextId
    · subst hje; rw [setRec_same]; left; rfl
    · rw [setRec_other _ _ _ _ hje]; exact h.wopt j
  · intro j hjs
    by_cases hje : j = s.nextId
    · subst hje; rw [setRec_same] at hjs; exact absurd hjs (by simp)
    · rw [setRec_other _ _ _ _ hje] at hjs
      exact h.runstate j hjs

theorem wf_cancel (s : QState) (i : Int) (h : WF s) : WF (cancel s i) := by
  simp only [cancel]
  by_cases hr : i < 0 ∨ ((jobsView s).length : Int) ≤ i
  · rw [if_pos hr]; exact h
  · rw [if_neg hr]
    by_cases hb1 : (s.recs ((jobsView s).getD i.toNat 0)).state = JState.running ∧
        (s.recs ((jobsView s).getD i.toNat 0)).worker ≠ none
    · rw [if_pos hb1]
      generalize hjid : (jobsView s).getD i.toNat 0 = jid at hb1
      refine ⟨h.fresh, h.nodup, ?_, ?_, ?_, ?_⟩ <;> dsimp only
      · intro j hj
        by_cases hje : j = jid
        · subst hje
          rw [setRec_same]
          exact ⟨(h.pend j hj).1, Or.inr rfl⟩
        · rw [setRec_other _ _ _ _ hje]
          exact h.pend j hj
      · intro j hj
        by_cases hje : j = jid
        · subst hje
          rw [setRec_same]
          rcases h.wopt j with hw | hw
          · exact absurd hw hb1.2
          · exact hw
        · rw [setRec_other _ _ _ _ hje]
          exact h.runw j hj
      · intro j
        by_cases hje : j = jid
        · subst hje; rw [setRec_same]; exact h.wopt j
        · rw [setRec_other _ _ _ _ hje]; exact h.wopt j
      · intro j hjs
        by_cases hje : j = jid
        · subst hje; rw [setRec_same] at hjs; exact absurd hjs (by simp)
        · rw [setRec_other _ _ _ _ hje] at hjs
          exact h.runstate j hjs
    · rw [if_neg hb1]
      by_cases hb2 : (s.recs ((jobsView s).getD i.toNat 0)).state = JState.queued
      · rw [if_pos hb2]
        generalize hjid : (jobsView s).getD i.toNat 0 = jid at hb2
        have hsub := removeFirstEq_sublist s.recs (s.recs jid) s.pending
        refine ⟨?_, ?_, ?_, ?_, ?_, ?_⟩ <;> dsimp only
        · intro j hj
          exact h.fresh j ((hsub.append_right _).subset hj)
        · exact (hsub.append_right _).nodup h.nodup
        · intro j hj
          have hjp : j ∈ s.pending := hsub.subset hj
          by_cases hje : j = jid
          · subst hje
            rw [setRec_same]
            exact ⟨(h.pend j hjp).1, Or.inr rfl⟩
          · rw [setRec_other _ _ _ _ hje]
            exact h.pend j hjp
        · intro j hj
          by_cases hje : j = jid
          · subst hje
            rw [setRec_same]
            exact h.runw j hj
          · rw [setRec_other _ _ _ _ hje]
            exact h.runw j hj
        · intro j
          by_cases hje : j = jid
          · subst hje; rw [setRec_same]; exact h.wopt j
          · rw [setRec_other _ _ _ _ hje]; exact h.wopt j
        · intro j hjs
          by_cases hje : j = jid
          · subst hje; rw [setRec_same] at hjs; exact absurd hjs (by simp)
          · rw [setRec_other _ _ _ _ hje] at hjs
            exact h.runstate j hjs
      · rw [if_neg hb2]
        exact ⟨h.fresh, h.nodup, h.pend, h.runw, h.wopt, h.runstate⟩

theorem emitIfTracked_pending (s : QState) (jid : Nat) :
    (emitIfTracked s jid).pending = s.pending := by
  rw [emitIfTracked]; split <;> rfl

theorem emitIfTracked_running (s : QState) (jid : Nat) :
    (emitIfTracked s jid).running = s.running := by
  rw [emitIfTracked]; split <;> rfl

theorem emitIfTracked_recs (s : QState) (jid : Nat) :
    (emitIfTracked s jid).recs = s.recs := by
  rw [emitIfTracked]; split <;> rfl

theorem emitIfTracked_nextId (s : QState) (jid : Nat) :
    (emitIfTracked s jid).nextId = s.nextId := by
  rw [emitIfTracked]; split <;> rfl

theorem emitIfTracked_maxParallel (s : QState) (jid : Nat) :
    (emitIfTracked s jid).maxParallel = s.maxParallel := by
  rw [emitIfTracked]; split <;> rfl

theorem emitIfTracked_count_queueEmpty (s : QState) (jid : Nat) :
    (emitIfTracked s jid).events.count Event.queueEmpty =
      s.events.count Event.queueEmpty := by
  rw [emitIfTracked]; split
  · simp [List.count_append]
  · rfl

theorem wf_emitIfTracked (s : QState) (jid : Nat) (h : WF s) : WF (emitIfTracked s jid) := by
  rw [emitIfTracked]; split
  · exact ⟨h.fresh, h.nodup, h.pend, h.runw, h.wopt, h.runstate⟩
  · exact h

/-- Well-formedness survives an update that only changes the *state*
field of a job whose worker is its own (`statusMark`/`finishMark`), as
long as the new state is not `Running`. -/
theorem wf_setState (s : QState) (jid : Nat) (st : JState)
    (hw : (s.recs jid).worker = some jid) (hst : st ≠ .running) (h : WF s) :
    ∀ t : QState, t.nextId = s.nextId → t.pending = s.pending → t.running = s.running →
      t.recs = setRec s.recs jid { s.recs jid with state := st } → WF t := by
  intro t e1 e2 e3 e4
  refine ⟨?_, ?_, ?_, ?_, ?_, ?_⟩ <;> simp only [e1, e2, e3, e4]
  · exact h.fresh
  · exact h.nodup
  · intro j hj
    have hje : j ≠ jid := fun he => by
      have := (h.pend j hj).1
      rw [he, hw] at this
      exact Option.noConfusion this
    rw [setRec_other _ _ _ _ hje]
    exact h.pend j hj
  · intro j hj
    by_cases hje : j = jid
    · subst hje; rw [setRec_same]; exact hw
    · rw [setRec_other _ _ _ _ hje]; exact h.runw j hj
  · intro j
    by_cases hje : j = jid
    · subst hje; rw [setRec_same]; right; exact hw
    · rw [setRec_other _ _ _ _ hje]; exact h.wopt j
  · intro j hjs
    by_cases hje : j = jid
    · subst hje; rw [setRec_same] at hjs; exact absurd hjs hst
    · rw [setRec_other _ _ _ _ hje] at hjs
      exact h.runstate j hjs

theorem wf_statusMark (s : QState) (jid : Nat) (txt : String)
    (hw : (s.recs jid).worker = some jid) (h : WF s) : WF (statusMark s jid txt) := by
  rw [statusMark]; split
  · exact wf_setState s jid .error hw (by simp) h _ rfl rfl rfl rfl
  · exact h

theorem statusMark_worker (s : QState) (jid : Nat) (txt : String) (j : Nat) :
    ((statusMark s jid txt).recs j).worker = (s.recs j).worker := by
  rw [statusMark]; split
  · show (setRec s.recs jid { s.recs jid with state := JState.error } j).worker = (s.recs j).worker
    by_cases hje : j = jid
    · subst hje; rw [setRec_same]
    · rw [setRec_other _ _ _ _ hje]
  · rfl

theorem statusMark_pending (s : QState) (jid : Nat) (txt : String) :
    (statusMark s jid txt).pending = s.pending := by
  rw [statusMark]; split <;> rfl

theorem statusMark_running (s : QState) (jid : Nat) (txt : String) :
    (statusMark s jid txt).running = s.running := by
  rw [statusMark]; split <;> rfl

theorem statusMark_count_queueEmpty (s : QState) (jid : Nat) (txt : String) :
    (statusMark s jid txt).events.count Event.queueEmpty =
      s.events.count Event.queueEmpty := by
  rw [statusMark]; split
  · simp [List.count_append]
  · rfl

theorem wf_handleStatus (s : QState) (jid : Nat) (txt : String)
    (hw : (s.recs jid).worker = some jid) (h : WF s) : WF (handleStatus s jid txt) :=
  wf_emitIfTracked _ _ (wf_statusMark s jid txt hw h)

theorem wf_finishMark (s : QState) (jid : Nat)
    (hw : (s.recs jid).worker = some jid) (h : WF s) : WF (finishMark s jid) := by
  rw [finishMark]; split
  · exact wf_setState s jid .done hw (by simp) h _ rfl rfl rfl rfl
  · exact h

theorem finishMark_worker (s : QState) (jid : Nat) (j : Nat) :
    ((finishMark s jid).recs j).worker = (s.recs j).worker := by
  rw [finishMark]; split
  · by_cases hje : j = jid
    · subst hje
      show (setRec s.recs j { s.recs j with state := .done } j).worker = _
      rw [setRec_same]
    · show (setRec s.recs jid { s.recs jid with state := .done } j).worker = _
      rw [setRec_other _ _ _ _ hje]
  · rfl

theorem finishMark_pending (s : QState) (jid : Nat) :
    (finishMark s jid).pending = s.pending := by
  rw [finishMark]; split <;> rfl

theorem finishMark_running (s : QState) (jid : Nat) :
    (finishMark s jid).running = s.running := by
  rw [finishMark]; split <;> rfl

theorem finishMark_events (s : QState) (jid : Nat) :
    (finishMark s jid).events = s.events := by
  rw [finishMark]; split <;> rfl

/-- After `finishMark` the finished job is never in state `Running`:
its state was set to `Done`, or it already was `Error`/`Cancelled`. -/
theorem finishMark_state_ne_running (s : QState) (jid : Nat) :
    ((finishMark s jid).recs jid).state ≠ JState.running := by
  rw [finishMark]; split
  · show (setRec s.recs jid { s.recs jid with state := .done } jid).state ≠ _
    rw [setRec_same]
    simp
  · rename_i hcond
    rcases not_and_or.mp hcond with hc | hc
    · rw [not_not.mp hc]; simp
    · rw [not_not.mp hc]; simp

theorem wf_finishRemove (s : QState) (jid : Nat)
    (hw : (s.recs jid).worker = some jid)
    (hns : (s.recs jid).state ≠ JState.running) (h : WF s) : WF (finishRemove s jid) := by
  rw [finishRemove]; split
  · have hsub := removeFirstEq_sublist s.recs (s.recs jid) s.running
    refine ⟨?_, ?_, h.pend, ?_, h.wopt, ?_⟩ <;> dsimp only
    · intro j hj
      rcases List.mem_append.mp hj with hjp | hjr
      · exact h.fresh j (List.mem_append_left _ hjp)
      · exact h.fresh j (List.mem_append_right _ (hsub.subset hjr))
    · exact (hsub.append_left _).nodup h.nodup
    · intro j hj
      exact h.runw j (hsub.subset hj)
    · intro j hjs
      have hjr := h.runstate j hjs
      refine mem_removeFirstEq_of_ne _ _ _ _ hjr fun hrec => ?_
      have hjw := h.runw j hjr
      rw [hrec, hw] at hjw
      have hje : jid = j := by injection hjw
      rw [← hje] at hjs
      exact absurd hjs hns
  · exact h

theorem finishRemove_pending (s : QState) (jid : Nat) :
    (finishRemove s jid).pending = s.pending := by
  rw [finishRemove]; split <;> rfl

theorem finishRemove_recs (s : QState) (jid : Nat) :
    (finishRemove s jid).recs = s.recs := by
  rw [finishRemove]; split <;> rfl

theorem finishRemove_events (s : QState) (jid : Nat) :
    (finishRemove s jid).events = s.events := by
  rw [finishRemove]; split <;> rfl

theorem wf_onFinished (s : QState) (jid : Nat)
    (hw : (s.recs jid).worker = some jid) (h : WF s) : WF (onFinished s jid) := by
  rw [onFinished]
  have hw1 : ((finishMark s jid).recs jid).worker = some jid := by
    rw [finishMark_worker]; exact hw
  have hw2 : ((emitIfTracked (finishMark s jid) jid).recs jid).worker = some jid := by
    rw [emitIfTracked_recs]; exact hw1
  have hns2 : ((emitIfTracked (finishMark s jid) jid).recs jid).state ≠ JState.running := by
    rw [emitIfTracked_recs]; exact finishMark_state_ne_running s jid
  have h3 : WF (finishRemove (emitIfTracked (finishMark s jid) jid) jid) :=
    wf_finishRemove _ _ hw2 hns2
      (wf_emitIfTracked _ _ (wf_finishMark s jid hw h))
  split
  · exact ⟨h3.fresh, h3.nodup, h3.pend, h3.runw, h3.wopt, h3.runstate⟩
  · exact wf_launchLoop _ _ h3

theorem wf_init (m : Nat) : WF (init m) := by
  refine ⟨?_, ?_, ?_, ?_, ?_, ?_⟩ <;> simp [init]

theorem wf_setMax (s : QState) (n : Nat) (h : WF s) :
    WF { s with maxParallel := n } :=
  ⟨h.fresh, h.nodup, h.pend, h.runw, h.wopt, h.runstate⟩

/-- Every reachable queue state is well-formed. -/
theorem reaches_wf {s : QState} (h : Reaches s) : WF s := by
  induction h with
  | init m => exact wf_init m
  | enqueue p _ ih => exact wf_enqueue _ p ih
  | cancel i _ ih => exact wf_cancel _ i ih
  | status jid txt _ hw ih => exact wf_handleStatus _ jid txt hw ih
  | finished jid _ hw ih => exact wf_onFinished _ jid hw ih
  | setMax n _ ih => exact wf_setMax _ n ih

/-!
## Projection facts about the operations
-/

theorem cancel_running (s : QState) (i : Int) : (cancel s i).running = s.running := by
  rw [cancel]
  split
  · rfl
  · dsimp only
    split
    · rfl
    · split <;> rfl

theorem cancel_maxParallel (s : QState) (i : Int) : (cancel s i).maxParallel = s.maxParallel := by
  rw [cancel]
  split
  · rfl
  · dsimp only
    split
    · rfl
    · split <;> rfl

theorem cancel_nextId (s : QState) (i : Int) : (cancel s i).nextId = s.nextId := by
  rw [cancel]
  split
  · rfl
  · dsimp only
    split
    · rfl
    · split <;> rfl

theorem cancel_pending_sublist (s : QState) (i : Int) :
    List.Sublist (cancel s i).pending s.pending := by
  rw [cancel]
  split
  · exact List.Sublist.refl _
  · dsimp only
    split
    · exact List.Sublist.refl _
    · split
      · exact removeFirstEq_sublist _ _ _
      · exact List.Sublist.refl _

theorem statusMark_maxParallel (s : QState) (jid : Nat) (txt : String) :
    (statusMark s jid txt).maxParallel = s.maxParallel := by
  rw [statusMark]; split <;> rfl

theorem finishMark_maxParallel (s : QState) (jid : Nat) :
    (finishMark s jid).maxParallel = s.maxParallel := by
  rw [finishMark]; split <;> rfl

theorem finishMark_nextId (s : QState) (jid : Nat) :
    (finishMark s jid).nextId = s.nextId := by
  rw [finishMark]; split <;> rfl

theorem finishRemove_maxParallel (s : QState) (jid : Nat) :
    (finishRemove s jid).maxParallel = s.maxParallel := by
  rw [finishRemove]; split <;> rfl

theorem finishRemove_nextId (s : QState) (jid : Nat) :
    (finishRemove s jid).nextId = s.nextId := by
  rw [finishRemove]; split <;> rfl

theorem finishRemove_running_sublist (s : QState) (jid : Nat) :
    List.Sublist (finishRemove s jid).running s.running := by
  rw [finishRemove]; split
  · exact removeFirstEq_sublist _ _ _
  · exact List.Sublist.refl _

/-!
## The parallelism bound (towards C1)
-/

/-- Any operation other than a `_max_parallel` write keeps the running
set within the (unchanged) parallelism cap. -/
theorem step_keeps_bound (s : QState) (op : Op) (hop : ∀ n, op ≠ Op.setMax n)
    (h : s.running.length ≤ s.maxParallel) :
    (step s op).running.length ≤ (step s op).maxParallel ∧
      (step s op).maxParallel = s.maxParallel := by
  cases op with
  | enqueue p =>
    simp only [step, VideoDLP.enqueue, launchIfPossible, launchLoop_maxParallel]
    exact ⟨launchLoop_running_le _ _ h, trivial⟩
  | cancel i =>
    simp only [step]
    rw [cancel_running, cancel_maxParallel]
    exact ⟨h, rfl⟩
  | status jid txt =>
    simp only [step, handleStatus]
    rw [emitIfTracked_running, emitIfTracked_maxParallel,
      statusMark_running, statusMark_maxParallel]
    exact ⟨h, rfl⟩
  | finished jid =>
    simp only [step, onFinished]
    have hrs : ((finishRemove (emitIfTracked (finishMark s jid) jid) jid).running).length ≤
        s.running.length := by
      have h1 := finishRemove_running_sublist (emitIfTracked (finishMark s jid) jid) jid
      rw [emitIfTracked_running, finishMark_running] at h1
      exact h1.length_le
    have hmax : (finishRemove (emitIfTracked (finishMark s jid) jid) jid).maxParallel =
        s.maxParallel := by
      rw [finishRemove_maxParallel, emitIfTracked_maxParallel, finishMark_maxParallel]
    split
    · rename_i hcond
      refine ⟨?_, hmax⟩
      dsimp only
      rw [hcond.2]
      simp
    · rw [launchIfPossible, launchLoop_maxParallel, hmax]
      refine ⟨?_, rfl⟩
      exact (launchLoop_running_le _ _ (by rw [hmax]; exact le_trans hrs h)).trans
        (le_of_eq hmax)
  | setMax n => exact absurd rfl (hop n)

theorem foldl_keeps_bound (ops : List Op) (s : QState)
    (hfix : ∀ n, Op.setMax n ∉ ops) (h : s.running.length ≤ s.maxParallel) :
    (ops.foldl step s).running.length ≤ (ops.foldl step s).maxParallel ∧
      (ops.foldl step s).maxParallel = s.maxParallel := by
  induction ops generalizing s with
  | nil => exact ⟨h, rfl⟩
  | cons op rest ih =>
    simp only [List.foldl_cons]
    have hop : ∀ n, op ≠ Op.setMax n := fun n he =>
      hfix n (he ▸ List.mem_cons_self op rest)
    obtain ⟨h1, h2⟩ := step_keeps_bound s op hop h
    obtain ⟨h3, h4⟩ := ih (step s op) (fun n hn => hfix n (List.mem_cons_of_mem _ hn)) h1
    exact ⟨h3, h4.trans h2⟩

/-!
## The saturation invariant (towards C10)
-/

/-- Any operation other than a `_max_parallel` write preserves the
saturation invariant: either nothing is pending, or the running set has
reached the cap. -/
theorem step_keeps_saturation (s : QState) (op : Op) (hop : ∀ n, op ≠ Op.setMax n)
    (h : s.pending = [] ∨ s.maxParallel ≤ s.running.length) :
    (step s op).pending = [] ∨
      (step s op).maxParallel ≤ (step s op).running.length := by
  cases op with
  | enqueue p =>
    simp only [step, VideoDLP.enqueue, launchIfPossible, launchLoop_maxParallel]
    exact launchLoop_full _ _ (le_refl _)
  | cancel i =>
    simp only [step]
    rw [cancel_running, cancel_maxParallel]
    rcases h with h | h
    · left
      have := cancel_pending_sublist s i
      rw [h] at this
      exact List.sublist_nil.mp this
    · exact Or.inr h
  | status jid txt =>
    simp only [step, handleStatus]
    rw [emitIfTracked_pending, emitIfTracked_running, emitIfTracked_maxParallel,
      statusMark_pending, statusMark_running, statusMark_maxParallel]
    exact h
  | finished jid =>
    simp only [step, onFinished]
    split
    · rename_i hcond
      exact Or.inl hcond.1
    · rw [launchIfPossible, launchLoop_maxParallel]
      exact launchLoop_full _ _ (le_refl _)
  | setMax n => exact absurd rfl (hop n)

theorem foldl_keeps_saturation (ops : List Op) (s : QState)
    (hfix : ∀ n, Op.setMax n ∉ ops)
    (h : s.pending = [] ∨ s.maxParallel ≤ s.running.length) :
    (ops.foldl step s).pending = [] ∨
      (ops.foldl step s).maxParallel ≤ (ops.foldl step s).running.length := by
  induction ops generalizing s with
  | nil => exact h
  | cons op rest ih =>
    simp only [List.foldl_cons]
    have hop : ∀ n, op ≠ Op.setMax n := fun n he =>
      hfix n (he ▸ List.mem_cons_self op rest)
    exact ih (step s op) (fun n hn => hfix n (List.mem_cons_of_mem _ hn))
      (step_keeps_saturation s op hop h)

/-!
## Building reachability facts for concrete traces
-/

theorem run_snoc (m : Nat) (ops : List Op) (op : Op) :
    run m (ops ++ [op]) = step (run m ops) op := by
  rw [run, run, List.foldl_append]
  rfl

theorem reaches_run_enqueue (m : Nat) (ops : List Op) (p : Nat)
    (h : Reaches (run m ops)) : Reaches (run m (ops ++ [Op.enqueue p])) := by
  rw [run_snoc]
  exact Reaches.enqueue p h

theorem reaches_run_cancel (m : Nat) (ops : List Op) (i : Int)
    (h : Reaches (run m ops)) : Reaches (run m (ops ++ [Op.cancel i])) := by
  rw [run_snoc]
  exact Reaches.cancel i h

theorem reaches_run_setMax (m : Nat) (ops : List Op) (n : Nat)
    (h : Reaches (run m ops)) : Reaches (run m (ops ++ [Op.setMax n])) := by
  rw [run_snoc]
  exact Reaches.setMax n h

theorem reaches_run_status (m : Nat) (ops : List Op) (jid : Nat) (txt : String)
    (hw : ((run m ops).recs jid).worker = some jid)
    (h : Reaches (run m ops)) : Reaches (run m (ops ++ [Op.status jid txt])) := by
  rw [run_snoc]
  exact Reaches.status jid txt h hw

theorem reaches_run_finished (m : Nat) (ops : List Op) (jid : Nat)
    (hw : ((run m ops).recs jid).worker = some jid)
    (h : Reaches (run m ops)) : Reaches (run m (ops ++ [Op.finished jid])) := by
  rw [run_snoc]
  exact Reaches.finished jid h hw

/-!
## The claims
-/

/-- C1: for every sequence of enqueue, cancel and worker-event operations
with a fixed positive `max_parallel`, the number of jobs in the running
set is at most `max_parallel` after every admission pass (indeed, after
every operation). -/
theorem claim1_running_bounded (m : Nat) (ops : List Op) (hm : 0 < m)
    (hfix : ∀ n, Op.setMax n ∉ ops) :
    (run m ops).running.length ≤ m := by
  obtain ⟨h1, h2⟩ := foldl_keeps_bound ops (init m) hfix (by simp [init])
  rw [run]
  exact le_trans h1 (le_of_eq h2)

theorem claim1_running_bounded_holds :
    0 < 1 ∧ (run 1 [Op.enqueue 0, Op.enqueue 1, Op.enqueue 2]).running.length ≤ 1 :=
  ⟨by decide,
   claim1_running_bounded 1 [Op.enqueue 0, Op.enqueue 1, Op.enqueue 2] (by decide)
     (by intro n; simp)⟩

/-- C3: jobs launch in FIFO order: an admission pass always moves a
prefix of `_pending`, in order, to the tail of `_running`, and `enqueue`
appends the new job at the tail of `_pending` before admitting. -/
theorem claim3_fifo_admission :
    (∀ s : QState, ∃ k,
        (launchIfPossible s).pending = s.pending.drop k ∧
        (launchIfPossible s).running = s.running ++ s.pending.take k)
  ∧ (∀ (s : QState) (p : Nat), ∃ k,
        (enqueue s p).pending = (s.pending ++ [s.nextId]).drop k ∧
        (enqueue s p).running = s.running ++ (s.pending ++ [s.nextId]).take k) := by
  constructor
  · intro s
    exact launchLoop_fifo _ s
  · intro s p
    simp only [enqueue, launchIfPossible]
    exact launchLoop_fifo _ _

/-- C7: a worker run always ends in exactly one status emission —
`"Finished"` when the engine call returns normally, `"Error: <message>"`
when it raises — and no other emitted event is a status event (no
failure escapes the worker as an uncaught fault). -/
theorem claim7_worker_status (calls : List EngineCall) (outcome : Except String Unit) :
    (workerRun calls outcome = engineEvents calls ++ [WEvent.status (statusText outcome)]
      ∧ ∀ e ∈ engineEvents calls, ∀ t, e ≠ WEvent.status t)
  ∧ statusText (Except.ok ()) = "Finished"
  ∧ (∀ msg, statusText (Except.error msg) = "Error: " ++ msg) := by
  refine ⟨⟨rfl, ?_⟩, rfl, fun msg => rfl⟩
  induction calls with
  | nil => simp [engineEvents]
  | cons c rest ih =>
    cases c with
    | hookCall d =>
      simp only [engineEvents, List.foldr_cons]
      cases hhook : hook d with
      | none => exact ih
      | some pr =>
        intro e he t
        rcases List.mem_cons.mp he with he | he
        · subst he; exact fun h => WEvent.noConfusion h
        · exact ih e he t
    | logCall txt =>
      simp only [engineEvents, List.foldr_cons]
      intro e he t
      rcases List.mem_cons.mp he with he | he
      · subst he; exact fun h => WEvent.noConfusion h
      · exact ih e he t

/-- C8: the progress hook parses the percent text after deleting the
`%` sign and stripping ANSI colour escapes; parse failure never raises
but yields `0.0`; in particular `"abc"` and `""` yield `0` and
`"\x1b[32m42%\x1b[0m"` yields `42`. -/
theorem claim8_percent_parsing :
    (∀ d : HookData, d.status = "downloading" →
        hook d = some (percentOf d.percentStr, pyName d.filename))
  ∧ (∀ t : String, pyFloat? (pyStrip (stripAnsiStr (removePercent t))) = none →
        percentOf t = 0)
  ∧ percentOf "abc" = 0
  ∧ percentOf "" = 0
  ∧ percentOf "\x1b[32m42%\x1b[0m" = 42 := by
  refine ⟨?_, ?_, by decide, by decide, by decide⟩
  · intro d hd
    rw [hook, if_pos hd]
  · intro t ht
    rw [percentOf]
    rw [ht]

theorem claim8_percent_parsing_holds :
    hook ⟨"downloading", "abc", "dir/clip.mp4"⟩ = some (0, "clip.mp4")
      ∧ percentOf "abc" = 0 := by
  constructor
  · have h := claim8_percent_parsing.1 ⟨"downloading", "abc", "dir/clip.mp4"⟩ rfl
    rw [h]
    decide
  · exact claim8_percent_parsing.2.1 "abc" (by decide)

/-- C9: an out-of-range `cancel` index is a complete no-op (nothing is
even emitted), and a `cancel` addressing a job already in a terminal
state (`Done`, `Error`, `Cancelled`) leaves the pending sequence, the
running list and every job record unchanged. -/
theorem claim9_cancel_noop (s : QState) (i : Int) :
    ((i < 0 ∨ ((jobsView s).length : Int) ≤ i) → cancel s i = s)
  ∧ (¬(i < 0 ∨ ((jobsView s).length : Int) ≤ i) →
      ((s.recs ((jobsView s).getD i.toNat 0)).state = .done ∨
        (s.recs ((jobsView s).getD i.toNat 0)).state = .error ∨
        (s.recs ((jobsView s).getD i.toNat 0)).state = .cancelled) →
      (cancel s i).pending = s.pending ∧ (cancel s i).running = s.running ∧
        (cancel s i).recs = s.recs) := by
  constructor
  · intro h
    simp only [cancel]
    rw [if_pos h]
  · intro h hterm
    simp only [cancel]
    rw [if_neg h]
    have h1 : ¬((s.recs ((jobsView s).getD i.toNat 0)).state = JState.running ∧
        (s.recs ((jobsView s).getD i.toNat 0)).worker ≠ none) := by
      intro hc
      rcases hterm with ht | ht | ht <;> rw [hc.1] at ht <;> exact JState.noConfusion ht
    rw [if_neg h1]
    have h2 : ¬(s.recs ((jobsView s).getD i.toNat 0)).state = JState.queued := by
      intro hc
      rcases hterm with ht | ht | ht <;> rw [hc] at ht <;> exact JState.noConfusion ht
    rw [if_neg h2]
    exact ⟨rfl, rfl, rfl⟩

theorem claim9_cancel_noop_holds :
    cancel (run 1 [Op.enqueue 0, Op.cancel 0]) 5 = run 1 [Op.enqueue 0, Op.cancel 0]
  ∧ (cancel (run 1 [Op.enqueue 0, Op.cancel 0]) 0).pending
      = (run 1 [Op.enqueue 0, Op.cancel 0]).pending
  ∧ (cancel (run 1 [Op.enqueue 0, Op.cancel 0]) 0).running
      = (run 1 [Op.enqueue 0, Op.cancel 0]).running
  ∧ (cancel (run 1 [Op.enqueue 0, Op.cancel 0]) 0).recs
      = (run 1 [Op.enqueue 0, Op.cancel 0]).recs := by
  refine ⟨(claim9_cancel_noop _ 5).1 (by decide), ?_⟩
  exact (claim9_cancel_noop _ 0).2 (by decide) (by decide)

/-!
## Exactness of the `_on_finished` removal (towards C4)
-/

theorem memEq_of_mem (f : Nat → JobRec) (l : List Nat) (jid : Nat) (h : jid ∈ l) :
    memEq f (f jid) l = true := by
  simp only [memEq, List.any_eq_true, decide_eq_true_eq]
  exact ⟨jid, h, rfl⟩

/-- When every job in the list holds its own worker, removal by
dataclass value removes exactly the named job: worker references make
the records injective. -/
theorem removeFirstEq_eq_erase (f : Nat → JobRec) (l : List Nat) (jid : Nat)
    (hmem : jid ∈ l) (hworker : ∀ j ∈ l, (f j).worker = some j) :
    removeFirstEq f (f jid) l = l.erase jid := by
  induction l with
  | nil => simp at hmem
  | cons a rest ih =>
    rw [removeFirstEq]
    by_cases ha : f a = f jid
    · have haj : a = jid := by
        have h1 := hworker a (List.mem_cons_self a rest)
        have h2 := hworker jid hmem
        rw [ha, h2] at h1
        injection h1 with hv
        exact hv.symm
      rw [if_pos ha, haj, List.erase_cons_head]
    · have haj : a ≠ jid := fun he => ha (he ▸ rfl)
      rw [if_neg ha, List.erase_cons_tail (by simpa using haj)]
      congr 1
      refine ih ?_ (fun j hj => hworker j (List.mem_cons_of_mem a hj))
      rcases List.mem_cons.mp hmem with h | h
      · exact absurd h.symm haj
      · exact h

theorem erase_eq_nil_of_mem {l : List Nat} {a : Nat} (hmem : a ∈ l)
    (h : l.erase a = []) : l = [a] := by
  cases l with
  | nil => simp at hmem
  | cons b rest =>
    by_cases hb : b = a
    · subst hb
      rw [List.erase_cons_head] at h
      rw [h]
    · rw [List.erase_cons_tail (by simpa using hb)] at h
      exact absurd h (by simp)

/-- C2 (code bug): `Cancelled` is not terminal under `_handle_status`.
After cancelling the running job 0 (state `Cancelled`), a late worker
status `"Error: boom"` — reachable, since a status queued before
`terminate()` is still delivered — moves its state to `Error`.  The
`Reaches` conjunct certifies the scenario uses only the system's real
entry points (the status event fires for a launched worker). -/
theorem claim2_terminal_not_preserved :
    ((((run 1 [Op.enqueue 0, Op.cancel 0]).recs 0).state,
      ((run 1 [Op.enqueue 0, Op.cancel 0, Op.status 0 "Error: boom"]).recs 0).state)
      = (JState.cancelled, JState.error))
  ∧ Reaches (run 1 [Op.enqueue 0, Op.cancel 0, Op.status 0 "Error: boom"]) := by
  constructor
  · decide
  · exact reaches_run_status 1 [Op.enqueue 0, Op.cancel 0] 0 "Error: boom" (by decide)
      (reaches_run_cancel 1 [Op.enqueue 0] 0
        (reaches_run_enqueue 1 [] 0 (Reaches.init 1)))

/-- C5 (code bug): cancelling a queued job can remove the *wrong* job
and later launch the cancelled one.  With `max_parallel = 1`, enqueue
job 0 (payload 10, launches) and jobs 1 and 2 with equal payloads 7.
`cancel 1` addresses job 2 in the combined view `[1, 2, 0]`; dataclass
equality makes `deque.remove` delete job 1 instead, job 2 stays pending
in state `Cancelled`, and when job 0 finishes, job 2 is launched: its
state becomes `Running`. -/
theorem claim5_cancel_queued_wrong_removal :
    (((run 1 [Op.enqueue 10, Op.enqueue 7, Op.enqueue 7, Op.cancel 1]).pending,
      ((run 1 [Op.enqueue 10, Op.enqueue 7, Op.enqueue 7, Op.cancel 1]).recs 2).state,
      ((run 1 [Op.enqueue 10, Op.enqueue 7, Op.enqueue 7, Op.cancel 1]).recs 1).state,
      ((run 1 [Op.enqueue 10, Op.enqueue 7, Op.enqueue 7, Op.cancel 1, Op.finished 0]).recs 2).state,
      (run 1 [Op.enqueue 10, Op.enqueue 7, Op.enqueue 7, Op.cancel 1, Op.finished 0]).running)
      = ([2], JState.cancelled, JState.queued, JState.running, [2]))
  ∧ Reaches (run 1 [Op.enqueue 10, Op.enqueue 7, Op.enqueue 7, Op.cancel 1, Op.finished 0]) := by
  constructor
  · decide
  · exact reaches_run_finished 1 [Op.enqueue 10, Op.enqueue 7, Op.enqueue 7, Op.cancel 1] 0
      (by decide)
      (reaches_run_cancel 1 [Op.enqueue 10, Op.enqueue 7, Op.enqueue 7] 1
        (reaches_run_enqueue 1 [Op.enqueue 10, Op.enqueue 7] 7
          (reaches_run_enqueue 1 [Op.enqueue 10] 7
            (reaches_run_enqueue 1 [] 10 (Reaches.init 1)))))

/-- C6 counterexample: the claimed invariant «worker non-null iff state
is Running» fails on a reachable state: after `enqueue` + `cancel 0`,
job 0 sits in the running list with state `Cancelled` and its worker
reference still set (the code never clears `job.worker`). -/
theorem claim6_worker_iff_running_cex :
    ((((run 1 [Op.enqueue 0, Op.cancel 0]).recs 0).worker,
      ((run 1 [Op.enqueue 0, Op.cancel 0]).recs 0).state,
      (run 1 [Op.enqueue 0, Op.cancel 0]).running)
      = (some 0, JState.cancelled, [0]))
  ∧ Reaches (run 1 [Op.enqueue 0, Op.cancel 0]) := by
  constructor
  · decide
  · exact reaches_run_cancel 1 [Op.enqueue 0] 0
      (reaches_run_enqueue 1 [] 0 (Reaches.init 1))

/-- C6 as amended: on every reachable state, a job's worker reference is
non-null iff the job has been launched — equivalently, pending jobs have
no worker, every job in the running list holds its own worker, and a job
in state `Running` is in the running list with a worker.  (Terminal jobs
that were launched retain their worker until removed.) -/
theorem claim6_worker_iff_launched (s : QState) (h : Reaches s) :
    (∀ jid ∈ s.pending, (s.recs jid).worker = none)
  ∧ (∀ jid ∈ s.running, (s.recs jid).worker = some jid)
  ∧ (∀ jid, (s.recs jid).state = JState.running →
      jid ∈ s.running ∧ (s.recs jid).worker ≠ none) := by
  have hw := reaches_wf h
  refine ⟨fun jid hjid => (hw.pend jid hjid).1, hw.runw, fun jid hjs => ?_⟩
  have hmem := hw.runstate jid hjs
  refine ⟨hmem, ?_⟩
  rw [hw.runw jid hmem]
  exact Option.noConfusion

theorem claim6_worker_iff_launched_holds :
    ((run 1 [Op.enqueue 0]).recs 0).worker = some 0 := by
  have h : Reaches (run 1 [Op.enqueue 0]) :=
    reaches_run_enqueue 1 [] 0 (Reaches.init 1)
  exact (claim6_worker_iff_launched _ h).2.1 0 (by decide)

/-- C10 counterexample: `cancel` does not run the admission algorithm,
and the claimed consequence fails once `_max_parallel` is raised at
runtime (`gui.py` line 98).  With `max_parallel` raised from 1 to 3,
cancelling queued job 2 leaves job 1 pending and unlaunched while only
one job runs — an admission pass at that state would launch job 1. -/
theorem claim10_cancel_admission_cex :
    (((run 1 [Op.enqueue 5, Op.enqueue 6, Op.enqueue 7, Op.setMax 3, Op.cancel 1]).pending,
      ((run 1 [Op.enqueue 5, Op.enqueue 6, Op.enqueue 7, Op.setMax 3, Op.cancel 1]).recs 1).state,
      ((run 1 [Op.enqueue 5, Op.enqueue 6, Op.enqueue 7, Op.setMax 3, Op.cancel 1]).recs 2).state,
      (run 1 [Op.enqueue 5, Op.enqueue 6, Op.enqueue 7, Op.setMax 3, Op.cancel 1]).running,
      (run 1 [Op.enqueue 5, Op.enqueue 6, Op.enqueue 7, Op.setMax 3, Op.cancel 1]).maxParallel,
      (launchIfPossible (run 1 [Op.enqueue 5, Op.enqueue 6, Op.enqueue 7, Op.setMax 3, Op.cancel 1])).running)
      = ([1], JState.queued, JState.cancelled, [0], 3, [0, 1]))
  ∧ Reaches (run 1 [Op.enqueue 5, Op.enqueue 6, Op.enqueue 7, Op.setMax 3, Op.cancel 1]) := by
  constructor
  · decide
  · exact reaches_run_cancel 1 [Op.enqueue 5, Op.enqueue 6, Op.enqueue 7, Op.setMax 3] 1
      (reaches_run_setMax 1 [Op.enqueue 5, Op.enqueue 6, Op.enqueue 7] 3
        (reaches_run_enqueue 1 [Op.enqueue 5, Op.enqueue 6] 7
          (reaches_run_enqueue 1 [Op.enqueue 5] 6
            (reaches_run_enqueue 1 [] 5 (Reaches.init 1)))))

/-- C10 as amended: `cancel` itself never changes the running list or
the cap (so it launches nothing and frees no capacity), and as long as
`_max_parallel` is never written at runtime, every state along a run —
in particular the state after any cancel — has no pending job while the
running set is below the cap. -/
theorem claim10_saturation (m : Nat) (ops : List Op)
    (hfix : ∀ n, Op.setMax n ∉ ops) :
    ((run m ops).pending = [] ∨ (run m ops).maxParallel ≤ (run m ops).running.length)
  ∧ (∀ (s : QState) (i : Int),
      (cancel s i).running = s.running ∧ (cancel s i).maxParallel = s.maxParallel) :=
  ⟨foldl_keeps_saturation ops (init m) hfix (Or.inl rfl),
   fun s i => ⟨cancel_running s i, cancel_maxParallel s i⟩⟩

theorem claim10_saturation_holds :
    (run 1 [Op.enqueue 0, Op.enqueue 1, Op.cancel 0]).pending = [] ∨
      (run 1 [Op.enqueue 0, Op.enqueue 1, Op.cancel 0]).maxParallel ≤
        (run 1 [Op.enqueue 0, Op.enqueue 1, Op.cancel 0]).running.length :=
  (claim10_saturation 1 [Op.enqueue 0, Op.enqueue 1, Op.cancel 0] (by intro n; simp)).1

/-- C4: on a worker's completion for a launched job `jid`, the queue (i)
marks the job `Done` unless it is already `Error`/`Cancelled` (in which
case its record is untouched), (ii) removes exactly that job from the
running list, (iii) emits exactly one `queue_empty` notification when
pending and running are then both empty, and (iv) otherwise emits no
`queue_empty` and re-runs the admission pass: a prefix of `_pending`
moves, in order, into the freed capacity, and the pass runs to
saturation — afterwards nothing is pending or the running set has
reached the cap again. -/
theorem claim4_on_finished (s : QState) (jid : Nat) (hR : Reaches s)
    (hmem : jid ∈ s.running) (hw : (s.recs jid).worker = some jid) :
    (((s.recs jid).state ≠ JState.error ∧ (s.recs jid).state ≠ JState.cancelled) →
        ((onFinished s jid).recs jid).state = JState.done)
  ∧ (((s.recs jid).state = JState.error ∨ (s.recs jid).state = JState.cancelled) →
        (onFinished s jid).recs jid = s.recs jid)
  ∧ jid ∉ (onFinished s jid).running
  ∧ ((s.pending = [] ∧ s.running = [jid]) →
        (onFinished s jid).events.count Event.queueEmpty
          = s.events.count Event.queueEmpty + 1)
  ∧ (¬(s.pending = [] ∧ s.running = [jid]) →
        (onFinished s jid).events.count Event.queueEmpty
            = s.events.count Event.queueEmpty
      ∧ (∃ k, (onFinished s jid).pending = s.pending.drop k
          ∧ (onFinished s jid).running = s.running.erase jid ++ s.pending.take k)
      ∧ ((onFinished s jid).pending = []
          ∨ s.maxParallel ≤ (onFinished s jid).running.length)) := by
  have hWF := reaches_wf hR
  have hWF1 := wf_finishMark s jid hw hWF
  have hWF2 := wf_emitIfTracked (finishMark s jid) jid hWF1
  have hnd := List.nodup_append.mp hWF.nodup
  have hjp : jid ∉ s.pending := fun hp => hnd.2.2 hp hmem
  have hrunnodup : s.running.Nodup := hnd.2.1
  -- facts about the intermediate states
  have e2recs : (emitIfTracked (finishMark s jid) jid).recs = (finishMark s jid).recs :=
    emitIfTracked_recs _ _
  have e2run : (emitIfTracked (finishMark s jid) jid).running = s.running := by
    rw [emitIfTracked_running, finishMark_running]
  have e2pend : (emitIfTracked (finishMark s jid) jid).pending = s.pending := by
    rw [emitIfTracked_pending, finishMark_pending]
  have hchk : memEq (emitIfTracked (finishMark s jid) jid).recs
      ((emitIfTracked (finishMark s jid) jid).recs jid)
      (emitIfTracked (finishMark s jid) jid).running = true := by
    rw [e2run]
    exact memEq_of_mem _ _ jid hmem
  have herase : removeFirstEq (emitIfTracked (finishMark s jid) jid).recs
      ((emitIfTracked (finishMark s jid) jid).recs jid)
      (emitIfTracked (finishMark s jid) jid).running = s.running.erase jid := by
    rw [e2run]
    refine removeFirstEq_eq_erase _ _ jid hmem fun j hj => ?_
    exact hWF2.runw j (by rw [e2run]; exact hj)
  have e3run : (finishRemove (emitIfTracked (finishMark s jid) jid) jid).running
      = s.running.erase jid := by
    rw [finishRemove, if_pos hchk]
    exact herase
  have e3pend : (finishRemove (emitIfTracked (finishMark s jid) jid) jid).pending
      = s.pending := by
    rw [finishRemove_pending, e2pend]
  have e3recs : (finishRemove (emitIfTracked (finishMark s jid) jid) jid).recs
      = (finishMark s jid).recs := by
    rw [finishRemove_recs, e2recs]
  have e3count : (finishRemove (emitIfTracked (finishMark s jid) jid) jid).events.count
      Event.queueEmpty = s.events.count Event.queueEmpty := by
    rw [finishRemove_events, emitIfTracked_count_queueEmpty, finishMark_events]
  have e3max : (finishRemove (emitIfTracked (finishMark s jid) jid) jid).maxParallel
      = s.maxParallel := by
    rw [finishRemove_maxParallel, emitIfTracked_maxParallel, finishMark_maxParallel]
  -- the finished job's record after the whole handler
  have hrecs_fin : (onFinished s jid).recs jid = (finishMark s jid).recs jid := by
    simp only [onFinished]
    split
    · exact congrFun e3recs jid
    · rw [launchIfPossible]
      rw [launchLoop_recs_not_mem _ _ _ (by rw [e3pend]; exact hjp)]
      exact congrFun e3recs jid
  -- the lists after the whole handler
  have hpendrun : ∃ k, (onFinished s jid).pending = s.pending.drop k
      ∧ (onFinished s jid).running = s.running.erase jid ++ s.pending.take k := by
    simp only [onFinished]
    split
    · refine ⟨0, ?_, ?_⟩
      · show (finishRemove (emitIfTracked (finishMark s jid) jid) jid).pending = _
        rw [e3pend, List.drop_zero]
      · show (finishRemove (emitIfTracked (finishMark s jid) jid) jid).running = _
        rw [List.take_zero, List.append_nil, ← e3run]
    · rw [launchIfPossible]
      obtain ⟨k, hk1, hk2⟩ := launchLoop_fifo
        ((finishRemove (emitIfTracked (finishMark s jid) jid) jid).pending.length)
        (finishRemove (emitIfTracked (finishMark s jid) jid) jid)
      refine ⟨k, ?_, ?_⟩
      · rw [hk1, e3pend]
      · rw [hk2, e3run, e3pend]
  -- the branch conditions agree
  have hbranch : ((finishRemove (emitIfTracked (finishMark s jid) jid) jid).pending = []
      ∧ (finishRemove (emitIfTracked (finishMark s jid) jid) jid).running = [])
      ↔ (s.pending = [] ∧ s.running = [jid]) := by
    rw [e3pend, e3run]
    constructor
    · rintro ⟨h1, h2⟩
      exact ⟨h1, erase_eq_nil_of_mem hmem h2⟩
    · rintro ⟨h1, h2⟩
      refine ⟨h1, ?_⟩
      rw [h2, List.erase_cons_head]
  refine ⟨?_, ?_, ?_, ?_, ?_⟩
  · intro hcond
    rw [hrecs_fin, finishMark, if_pos hcond]
    show (setRec s.recs jid { s.recs jid with state := JState.done } jid).state = _
    rw [setRec_same]
  · intro hterm
    rw [hrecs_fin, finishMark, if_neg ?_]
    intro hc
    rcases hterm with ht | ht
    · exact hc.1 ht
    · exact hc.2 ht
  · obtain ⟨k, _, hk2⟩ := hpendrun
    rw [hk2]
    intro hcontra
    rcases List.mem_append.mp hcontra with hc | hc
    · exact hrunnodup.not_mem_erase hc
    · exact hjp (List.take_subset k s.pending hc)
  · intro hcond
    simp only [onFinished]
    rw [if_pos (hbranch.mpr hcond)]
    show ((finishRemove (emitIfTracked (finishMark s jid) jid) jid).events ++
        [Event.queueEmpty]).count Event.queueEmpty = _
    rw [List.count_append, e3count]
    simp
  · intro hncond
    refine ⟨?_, hpendrun, ?_⟩
    · simp only [onFinished]
      rw [if_neg fun hc => hncond (hbranch.mp hc)]
      rw [launchIfPossible, launchLoop_count_queueEmpty, e3count]
    · simp only [onFinished]
      rw [if_neg fun hc => hncond (hbranch.mp hc)]
      rw [launchIfPossible]
      have hfull := launchLoop_full
        ((finishRemove (emitIfTracked (finishMark s jid) jid) jid).pending.length)
        (finishRemove (emitIfTracked (finishMark s jid) jid) jid) (le_refl _)
      rwa [e3max] at hfull

theorem claim4_on_finished_holds :
    ((onFinished (run 1 [Op.enqueue 0, Op.enqueue 1]) 0).recs 0).state = JState.done
  ∧ 0 ∉ (onFinished (run 1 [Op.enqueue 0, Op.enqueue 1]) 0).running
  ∧ ((onFinished (run 1 [Op.enqueue 0, Op.enqueue 1]) 0).pending = []
      ∨ (run 1 [Op.enqueue 0, Op.enqueue 1]).maxParallel ≤
          (onFinished (run 1 [Op.enqueue 0, Op.enqueue 1]) 0).running.length)
  ∧ (onFinished (run 1 [Op.enqueue 0, Op.enqueue 1]) 0).running = [1]
  ∧ ((onFinished (run 1 [Op.enqueue 0, Op.enqueue 1]) 0).recs 1).state
      = JState.running := by
  have hR : Reaches (run 1 [Op.enqueue 0, Op.enqueue 1]) :=
    reaches_run_enqueue 1 [Op.enqueue 0] 1
      (reaches_run_enqueue 1 [] 0 (Reaches.init 1))
  have hc := claim4_on_finished (run 1 [Op.enqueue 0, Op.enqueue 1]) 0 hR
    (by decide) (by decide)
  exact ⟨hc.1 (by decide), hc.2.2.1, (hc.2.2.2.2 (by decide)).2.2, by decide, by decide⟩

end VideoDLP
